import Mathlib

/-!
Verification development for the distributed file backup system
(source: src/main.cpp).

The C++ source is shallowly embedded as pure Lean functions:

* bytes are `Nat` values (< 256 where it matters);
* the AES-256-CBC block primitive used through OpenSSL's
  `EVP_aes_256_cbc` is external to the repository, so it is modelled as
  an abstract `BlockCipher` (a keyed block map together with its keyed
  inverse); the CBC chaining, PKCS#7 padding and the padding check
  performed by `EVP_EncryptFinal_ex`/`EVP_DecryptFinal_ex` are embedded
  concretely, following the cipher calls in `Encryption::encrypt` and
  `Encryption::decrypt` (main.cpp lines 48-78);
* the SQLite tables of `DatabaseManager` are embedded as lists of rows
  (the autoincrement surrogate keys `chunk_id` are irrelevant to every
  claim and omitted; `file_id` is kept because the code uses it);
* the upload pipeline of `BackupSystem::backupFile` (lines 322-397) is
  embedded as a pure function parameterised by the success/failure
  outcome of each chunk upload (`CloudProvider::upload`'s Bool result);
* the worker pool (`BackupSystem::workerThread`, lines 292-309) and the
  completion wait loop (lines 387-393) are embedded as a labelled
  transition system on queue/running/finished task sets.
-/

/-- Bytes are natural numbers; the embedding keeps them below 256 where
a claim depends on it. -/
abbrev Byte := Nat

/-- Configuration constant, main.cpp line 21: 10 MB chunks. -/
def CHUNK_SIZE : Nat := 10 * 1024 * 1024

/-- Configuration constant, main.cpp line 23. -/
def NUM_UPLOAD_THREADS : Nat := 4

/-- The AES-256 block primitive consumed through OpenSSL
(`EVP_aes_256_cbc`, main.cpp lines 53 and 69). It is external to the
repository, so it is modelled abstractly: a keyed 16-byte block map
`encB` and the keyed map `decB` that OpenSSL guarantees to be its
inverse. The CBC chaining around it is embedded concretely below. -/
structure BlockCipher where
  encB : List Byte → List Byte → List Byte
  decB : List Byte → List Byte → List Byte

/-- The `Encryption` class state (main.cpp lines 26-30): a 32-byte key
and a 16-byte IV, both generated once per file and then reused. -/
structure Encryption where
  key : List Byte
  iv : List Byte

/-- Bytewise XOR of two equal-length byte strings (the CBC combine
step applied by the cipher mode). -/
def xorBytes (a b : List Byte) : List Byte :=
  List.zipWith (fun x y => x ^^^ y) a b

/-- PKCS#7 padding as applied by `EVP_EncryptFinal_ex` for a 16-byte
block cipher: append `n = 16 - len % 16` copies of the byte `n`
(a full block of 16s when the length is already a multiple of 16). -/
def pkcs7pad (pt : List Byte) : List Byte :=
  let padLen := 16 - pt.length % 16
  pt ++ List.replicate padLen padLen

/-- Fuelled worker for `toBlocks`: peel off 16 bytes per step. The
fuel only makes the recursion structural; one unit of fuel per leading
byte is always enough because every step consumes at least one byte. -/
def toBlocksAux : Nat → List Byte → List (List Byte)
  | _, [] => []
  | 0, _ :: _ => []
  | fuel + 1, x :: xs => ((x :: xs).take 16) :: toBlocksAux fuel ((x :: xs).drop 16)

/-- Split a byte string into consecutive 16-byte blocks (the block
iteration inside `EVP_EncryptUpdate`/`EVP_DecryptUpdate`); the last
block is shorter only for inputs that are not a multiple of 16, which
the padded inputs used here never are. -/
def toBlocks (l : List Byte) : List (List Byte) :=
  toBlocksAux l.length l

/-- CBC encryption chaining: each plaintext block is XORed with the
previous ciphertext block (initially the IV) and then passed through
the keyed block map, exactly the mode selected by `EVP_aes_256_cbc` in
`Encryption::encrypt` (main.cpp lines 53-57). -/
def cbcEncBlocks (C : BlockCipher) (key : List Byte) :
    List Byte → List (List Byte) → List (List Byte)
  | _, [] => []
  | prev, b :: bs =>
    let c := C.encB key (xorBytes prev b)
    c :: cbcEncBlocks C key c bs

/-- CBC decryption chaining: each ciphertext block is passed through
the keyed inverse block map and XORed with the previous ciphertext
block (initially the IV), as in `Encryption::decrypt`
(main.cpp lines 69-73). -/
def cbcDecBlocks (C : BlockCipher) (key : List Byte) :
    List Byte → List (List Byte) → List (List Byte)
  | _, [] => []
  | prev, c :: cs => xorBytes prev (C.decB key c) :: cbcDecBlocks C key c cs

/-- Embedding of `Encryption::encrypt` (main.cpp lines 48-62):
PKCS#7-pad the plaintext and CBC-encrypt it under the object's key and
IV. Note that the chunk index is not an input anywhere: the same
member IV is used for every call on one `Encryption` object. -/
def Encryption.encrypt (e : Encryption) (C : BlockCipher)
    (plaintext : List Byte) : List Byte :=
  (cbcEncBlocks C e.key e.iv (toBlocks (pkcs7pad plaintext))).flatten

/-- Embedding of `Encryption::decrypt` (main.cpp lines 64-78):
CBC-decrypt and then apply the `EVP_DecryptFinal_ex` padding rule. When
the PKCS#7 padding of the decrypted data is valid the padding is
stripped; when it is invalid `EVP_DecryptFinal_ex` reports failure and
emits no final block, but the C++ code ignores that return value (line
72) and returns the bytes produced by `EVP_DecryptUpdate` alone, i.e.
everything except the final block. In neither case does the function
signal an error to its caller: it always returns a byte string. -/
def Encryption.decrypt (e : Encryption) (C : BlockCipher)
    (ciphertext : List Byte) : List Byte :=
  let pt := (cbcDecBlocks C e.key e.iv (toBlocks ciphertext)).flatten
  match pt.getLast? with
  | none => []
  | some n =>
    if 1 ≤ n ∧ n ≤ 16 ∧ (pt.drop (pt.length - n)).all (fun x => x == n) then
      pt.take (pt.length - n)
    else
      pt.take (pt.length - 16)

/-- A concrete instantiation of the abstract block primitive used to
evaluate the embedding on explicit inputs: a bytewise permutation
(add 7 modulo 256) with its inverse (add 249 modulo 256). -/
def testCipher : BlockCipher where
  encB := fun _ b => b.map (fun x => (x + 7) % 256)
  decB := fun _ b => b.map (fun x => (x + 249) % 256)

/-- A concrete 32-byte key for evaluating the embedding. -/
def tkey : List Byte := List.replicate 32 1

/-- A concrete 16-byte IV for evaluating the embedding. -/
def tiv : List Byte := List.replicate 16 2

/-- A concrete `Encryption` object holding `tkey` and `tiv`. -/
def te : Encryption := ⟨tkey, tiv⟩

/-- Number of chunks computed by `BackupSystem::backupFile`
(main.cpp line 336): `(file_size + CHUNK_SIZE - 1) / CHUNK_SIZE`,
generalised over the chunk size constant. -/
def chunk_count (file_size c : Nat) : Nat := (file_size + c - 1) / c

namespace BackupSystem

/-- The plaintext of chunk `i`, as read by the loop in
`BackupSystem::backupFile` (main.cpp lines 349-352): starting at offset
`i * c`, read `min c (file_size - i * c)` bytes. -/
def chunkAt (file : List Byte) (c i : Nat) : List Byte :=
  (file.drop (i * c)).take (min c (file.length - i * c))

/-- The ordered sequence of chunk plaintexts produced by the chunking
loop (main.cpp lines 349-352), indices `0, …, chunk_count - 1`. -/
def fileChunks (file : List Byte) (c : Nat) : List (List Byte) :=
  (List.range (chunk_count file.length c)).map (chunkAt file c)

/-- The per-chunk encryption call of the backup loop
(main.cpp line 355): `enc.encrypt(chunk)`. The chunk index `i` is
carried by the loop but does not enter the cipher call; the same
`Encryption` object, hence the same key and IV, is used for every
chunk of the file. -/
def encryptChunkAt (e : Encryption) (C : BlockCipher) (i : Nat)
    (chunk : List Byte) : List Byte :=
  Encryption.encrypt e C chunk

/-- Embedding of `BackupSystem::calculateChecksum`
(main.cpp lines 311-320): sum all byte values and render the sum in
lowercase hexadecimal. -/
def calculateChecksum (data : List Byte) : String :=
  (Nat.toDigits 16 data.sum).asString

/-- The three simulated cloud providers registered by the
`BackupSystem` constructor (main.cpp lines 273-275). -/
def defaultProviders : List String := ["GoogleDrive", "Dropbox", "OneDrive"]

/-- Round-robin provider selection (main.cpp line 358):
`providers[i % providers.size()]`, generalised over the provider
list. -/
def selectProvider (providers : List String) (i : Nat) : String :=
  providers.getD (i % providers.length) ""

/-- Number of chunks among `0, …, K-1` that round-robin selection
assigns to the backend at position `j` of a list of `N` backends
(counting the indices `i < K` with `i % N = j`, per
main.cpp line 358). -/
def assignedCount (K N j : Nat) : Nat :=
  (List.range K).countP (fun i => i % N == j)

/-- The remote object name built for chunk `i` of file `file_id`
(main.cpp lines 359-360). -/
def remoteFilename (file_id i : Nat) : String :=
  "file_" ++ toString file_id ++ "_chunk_" ++ toString i ++ ".enc"

end BackupSystem

/-- A row of the `files` table (main.cpp lines 102-111); the
autoincrement key is modelled by position-based assignment in
`DatabaseManager.insertFile`. -/
structure FileRow where
  file_id : Nat
  original_path : String
  file_size : Nat
  chunk_count : Nat
  encryption_key : List Byte
  encryption_iv : List Byte
  backup_date : String
  status : String
deriving DecidableEq, Repr

/-- A row of the `chunks` table (main.cpp lines 113-123); the
autoincrement surrogate `chunk_id` plays no role in any claim and is
omitted. -/
structure ChunkRow where
  file_id : Nat
  chunk_index : Nat
  chunk_size : Nat
  cloud_provider : String
  remote_path : String
  checksum : String
  upload_status : String
deriving DecidableEq, Repr

/-- The durable state held by `DatabaseManager`: the two SQLite
tables. -/
structure CatalogState where
  files : List FileRow
  chunks : List ChunkRow
deriving DecidableEq, Repr

namespace DatabaseManager

/-- Embedding of `DatabaseManager::insertFile` (main.cpp lines
136-165): append a `files` row with status `pending` and return the
assigned `file_id` (autoincrement: one more than the number of
existing rows). The timestamp string is a parameter since wall-clock
time is external. -/
def insertFile (db : CatalogState) (path : String) (size cc : Nat)
    (key iv : List Byte) (now : String) : Nat × CatalogState :=
  let file_id := db.files.length + 1
  (file_id,
    ⟨db.files ++ [⟨file_id, path, size, cc, key, iv, now, "pending"⟩],
      db.chunks⟩)

/-- Embedding of `DatabaseManager::insertChunk` (main.cpp lines
167-189): append a `chunks` row whose `upload_status` is the literal
`uploaded` (hard-coded in the SQL VALUES clause, line 176). -/
def insertChunk (db : CatalogState) (file_id chunk_index chunk_size : Nat)
    (provider remote_path checksum : String) : CatalogState :=
  ⟨db.files,
    db.chunks ++
      [⟨file_id, chunk_index, chunk_size, provider, remote_path, checksum,
        "uploaded"⟩]⟩

/-- Embedding of `DatabaseManager::updateFileStatus` (main.cpp lines
191-203): set the status of every `files` row whose `file_id`
matches. -/
def updateFileStatus (db : CatalogState) (file_id : Nat) (status : String) :
    CatalogState :=
  ⟨db.files.map (fun f =>
      if f.file_id = file_id then
        ⟨f.file_id, f.original_path, f.file_size, f.chunk_count,
          f.encryption_key, f.encryption_iv, f.backup_date, status⟩
      else f),
    db.chunks⟩

end DatabaseManager

/-- The status of file `file_id` as read back from the catalog. -/
def getFileStatus (db : CatalogState) (file_id : Nat) : Option String :=
  (db.files.find? (fun f => f.file_id == file_id)).map (fun f => f.status)

/-- The chunk indices recorded as uploaded for `file_id` — what the
spec's `listChunks` check would see. -/
def uploadedIndices (db : CatalogState) (file_id : Nat) : List Nat :=
  (db.chunks.filter
      (fun r => r.file_id == file_id && r.upload_status == "uploaded")).map
    (fun r => r.chunk_index)

namespace BackupSystem

/-- One upload task as captured by the closure queued at main.cpp
lines 366-381: the chunk's identity, destination, checksum and
encrypted payload. -/
structure UploadTask where
  file_id : Nat
  chunk_index : Nat
  chunk_size : Nat
  provider : String
  remote_path : String
  checksum : String
  encrypted : List Byte
deriving DecidableEq, Repr

/-- Build the task for chunk `i`, following the loop body of
`BackupSystem::backupFile` (main.cpp lines 349-381): read the chunk,
encrypt it with the file's single `Encryption` object, pick the
provider round-robin, name the remote object, checksum the
ciphertext. -/
def mkTask (e : Encryption) (C : BlockCipher) (providers : List String)
    (file : List Byte) (file_id i : Nat) : UploadTask :=
  let chunk := chunkAt file CHUNK_SIZE i
  let encrypted := encryptChunkAt e C i chunk
  ⟨file_id, i, chunk.length, selectProvider providers i,
    remoteFilename file_id i, calculateChecksum encrypted, encrypted⟩

/-- The `chunks` row that a successful run of a task inserts
(main.cpp lines 374-375 via `DatabaseManager::insertChunk`). -/
def rowOf (t : UploadTask) : ChunkRow :=
  ⟨t.file_id, t.chunk_index, t.chunk_size, t.provider, t.remote_path,
    t.checksum, "uploaded"⟩

/-- Running one queued task (the closure body, main.cpp lines 368-380):
if `CloudProvider::upload` succeeds, insert the chunk row; on failure
only log — the catalog is untouched. -/
def runUploadTask (db : CatalogState) (t : UploadTask) (success : Bool) :
    CatalogState :=
  if success then
    DatabaseManager.insertChunk db t.file_id t.chunk_index t.chunk_size
      t.provider t.remote_path t.checksum
  else db

/-- The submission phase of `BackupSystem::backupFile` (main.cpp lines
348-382): build and queue one task per chunk index. Queueing performs
no catalog write — the function does not even receive the catalog. -/
def submitPhase (e : Encryption) (C : BlockCipher) (providers : List String)
    (file : List Byte) (file_id : Nat) : List UploadTask :=
  (List.range (chunk_count file.length CHUNK_SIZE)).map
    (mkTask e C providers file file_id)

/-- The drain of the queue by the worker pool before the wait loop
exits: each queued task runs once, succeeding or failing according to
`outcomes` (the Bool returned by `CloudProvider::upload` for that
chunk index). -/
def drainPhase (db : CatalogState) (tasks : List UploadTask)
    (outcomes : Nat → Bool) : CatalogState :=
  tasks.foldl (fun d t => runUploadTask d t (outcomes t.chunk_index)) db

/-- Embedding of `BackupSystem::backupFile` (main.cpp lines 322-397):
insert the file record, queue one task per chunk, let the workers
drain the queue, and then — unconditionally, line 395 — set the file
status to `completed`. The source consults neither the chunk table nor
any failure information before doing so, and has no path that sets
`failed`. -/
def backupFile (e : Encryption) (C : BlockCipher) (providers : List String)
    (db : CatalogState) (filepath : String) (file : List Byte) (now : String)
    (outcomes : Nat → Bool) : CatalogState :=
  let cc := chunk_count file.length CHUNK_SIZE
  let r := DatabaseManager.insertFile db filepath file.length cc e.key e.iv now
  let tasks := submitPhase e C providers file r.1
  let db2 := drainPhase r.2 tasks outcomes
  DatabaseManager.updateFileStatus db2 r.1 "completed"

end BackupSystem

/-- State of the upload scheduler: task identifiers still in
`upload_queue`, tasks popped by a worker and currently executing, and
tasks whose closure has returned. -/
structure SchedulerState where
  queued : List Nat
  running : List Nat
  finished : List Nat
deriving DecidableEq, Repr

/-- The interleaved steps of the worker pool
(`BackupSystem::workerThread`, main.cpp lines 292-309): a worker pops
the front task under the queue mutex and then executes it outside the
lock (`pop`), and a running task's closure eventually returns
(`taskDone`). -/
inductive SchedulerStep : SchedulerState → SchedulerState → Prop
  | pop (t : Nat) (rest running finished : List Nat) :
      SchedulerStep ⟨t :: rest, running, finished⟩
        ⟨rest, running ++ [t], finished⟩
  | taskDone (queued running finished : List Nat) (t : Nat)
      (h : t ∈ running) :
      SchedulerStep ⟨queued, running, finished⟩
        ⟨queued, running.erase t, finished ++ [t]⟩

/-- The exit condition of the completion wait loop in
`BackupSystem::backupFile` (main.cpp lines 387-393): the loop breaks —
and the orchestrator proceeds to mark the file completed — exactly
when `upload_queue.empty()` holds. Whether any popped task is still
executing is not consulted. -/
def awaitIdleReturns (s : SchedulerState) : Bool := s.queued.isEmpty

/-! ## Helper lemmas -/

/-- The chunk rows after a queue drain are exactly the old rows plus
one row per successfully uploaded task, in order. -/
theorem drainPhase_chunks (db : CatalogState)
    (tasks : List BackupSystem.UploadTask) (outcomes : Nat → Bool) :
    (BackupSystem.drainPhase db tasks outcomes).chunks =
      db.chunks ++
        (tasks.filter (fun t => outcomes t.chunk_index)).map
          BackupSystem.rowOf := by
  induction tasks generalizing db with
  | nil => simp [BackupSystem.drainPhase]
  | cons t ts ih =>
    simp only [BackupSystem.drainPhase, List.foldl_cons, List.filter_cons]
    cases h : outcomes t.chunk_index with
    | false =>
      simpa [BackupSystem.runUploadTask, h, BackupSystem.drainPhase] using
        ih db
    | true =>
      have h2 := ih (BackupSystem.runUploadTask db t true)
      simp only [BackupSystem.drainPhase] at h2
      simp only [BackupSystem.drainPhase, List.foldl_cons, List.filter_cons,
        h, if_pos, List.map_cons]
      rw [h2]
      simp [BackupSystem.runUploadTask, DatabaseManager.insertChunk,
        BackupSystem.rowOf, List.append_assoc]

/-- Unfolding equation for `BackupSystem.backupFile`: insert the file
row, build the task list, drain it, then set the final status. -/
theorem backupFile_eq (e : Encryption) (C : BlockCipher)
    (providers : List String) (db : CatalogState)
    (filepath : String) (file : List Byte) (now : String)
    (outcomes : Nat → Bool) :
    BackupSystem.backupFile e C providers db filepath file now outcomes =
      DatabaseManager.updateFileStatus
        (BackupSystem.drainPhase
          (DatabaseManager.insertFile db filepath file.length
            (chunk_count file.length CHUNK_SIZE) e.key e.iv now).2
          (BackupSystem.submitPhase e C providers file
            (DatabaseManager.insertFile db filepath file.length
              (chunk_count file.length CHUNK_SIZE) e.key e.iv now).1)
          outcomes)
        (DatabaseManager.insertFile db filepath file.length
          (chunk_count file.length CHUNK_SIZE) e.key e.iv now).1
        "completed" := rfl

/-- Updating a file status does not touch the chunk table. -/
theorem updateFileStatus_chunks (x : CatalogState) (i : Nat) (s : String) :
    (DatabaseManager.updateFileStatus x i s).chunks = x.chunks := rfl

/-- The file id assigned by `insertFile` is one more than the number of
existing file rows. -/
theorem insertFile_fst (db : CatalogState) (filepath : String) (s cc : Nat)
    (key iv : List Byte) (now : String) :
    (DatabaseManager.insertFile db filepath s cc key iv now).1 =
      db.files.length + 1 := rfl

/-- Inserting a file row does not touch the chunk table. -/
theorem insertFile_snd_chunks (db : CatalogState) (filepath : String)
    (s cc : Nat) (key iv : List Byte) (now : String) :
    (DatabaseManager.insertFile db filepath s cc key iv now).2.chunks =
      db.chunks := rfl

/-! ## Claim theorems -/

/-- Claim C1 (refuted; code bug): the orchestrator is supposed to set a
file's status to `completed` only when the uploaded chunk indices are
exactly the full index range, and to `failed` otherwise. In the source,
`backupFile` sets `completed` unconditionally (main.cpp line 395): a
one-byte file with one chunk whose upload fails ends with status
`completed` and an empty uploaded-index set. -/
theorem c1_completed_without_all_chunks :
    getFileStatus
        (BackupSystem.backupFile te testCipher BackupSystem.defaultProviders
          ⟨[], []⟩ "f.bin" [0] "2026-10-11" (fun _ => false)) 1 =
      some "completed"
    ∧ uploadedIndices
        (BackupSystem.backupFile te testCipher BackupSystem.defaultProviders
          ⟨[], []⟩ "f.bin" [0] "2026-10-11" (fun _ => false)) 1 = []
    ∧ chunk_count 1 CHUNK_SIZE = 1 := by
  refine ⟨?_, ?_, ?_⟩ <;> decide

/-- Claim C2 (refuted; code bug): the completion wait is supposed to
return only once every submitted task is terminal. The wait loop of the
source (main.cpp lines 387-393) breaks as soon as `upload_queue` is
empty, and a worker pops a task before executing it (lines 296-304): in
one reachable step the single submitted task 0 has been popped and is
still running, the queue is empty, so the wait's exit condition holds
while task 0 is not finished. -/
theorem c2_wait_returns_with_task_in_flight :
    Relation.ReflTransGen SchedulerStep ⟨[0], [], []⟩ ⟨[], [0], []⟩
    ∧ awaitIdleReturns ⟨[], [0], []⟩ = true
    ∧ (0 : Nat) ∉ SchedulerState.finished ⟨[], [0], []⟩ :=
  ⟨Relation.ReflTransGen.single (SchedulerStep.pop 0 [] [] []), rfl,
    by decide⟩

/-- Claim C3 (refuted; code bug): chunks are supposed to be encrypted
under per-index nonces so that distinct indices give distinct
ciphertexts even for identical plaintexts. In the source the chunk
index never reaches the cipher: `enc.encrypt(chunk)` (main.cpp line
355) reuses the one member IV for every chunk, so the ciphertexts for
indices 0 and 1 of identical plaintexts coincide — for every block
cipher, and in particular on a concrete instance. -/
theorem c3_same_iv_same_ciphertext :
    (∀ (C : BlockCipher) (e : Encryption) (i j : Nat) (chunk : List Byte),
      BackupSystem.encryptChunkAt e C i chunk =
        BackupSystem.encryptChunkAt e C j chunk)
    ∧ (0 : Nat) ≠ 1
    ∧ BackupSystem.encryptChunkAt te testCipher 0 [65, 65, 65] =
        BackupSystem.encryptChunkAt te testCipher 1 [65, 65, 65] :=
  ⟨fun _ _ _ _ _ => rfl, by decide, rfl⟩

/-- Claim C8 (confirmed): a chunk row reaches the catalog only from a
successful upload. After a drain, the chunk table is the old table plus
exactly one `uploaded` row per task whose upload succeeded; a failed
task leaves the catalog unchanged; a successful one appends its row;
and across the whole of `backupFile` the chunk rows added are exactly
those of the successful tasks — none are created at submission. -/
theorem c8_chunk_rows_only_on_success :
    ∀ (db : CatalogState) (tasks : List BackupSystem.UploadTask)
      (outcomes : Nat → Bool),
      (BackupSystem.drainPhase db tasks outcomes).chunks =
        db.chunks ++
          (tasks.filter (fun t => outcomes t.chunk_index)).map
            BackupSystem.rowOf
      ∧ (∀ t, BackupSystem.runUploadTask db t false = db)
      ∧ (∀ t, (BackupSystem.runUploadTask db t true).chunks =
          db.chunks ++ [BackupSystem.rowOf t])
      ∧ (∀ (e : Encryption) (C : BlockCipher) (providers : List String)
          (filepath : String) (file : List Byte) (now : String),
          (BackupSystem.backupFile e C providers db filepath file now
              outcomes).chunks =
            db.chunks ++
              ((BackupSystem.submitPhase e C providers file
                    (db.files.length + 1)).filter
                  (fun t => outcomes t.chunk_index)).map
                BackupSystem.rowOf) := by
  intro db tasks outcomes
  refine ⟨drainPhase_chunks db tasks outcomes, fun t => rfl, fun t => rfl,
    ?_⟩
  intro e C providers filepath file now
  rw [backupFile_eq, updateFileStatus_chunks, drainPhase_chunks,
    insertFile_snd_chunks, insertFile_fst]

/-- Claim C10 (confirmed): backing up an empty byte stream is accepted:
the chunk count is 0, no upload task is submitted, no chunk row is
written, and the file record ends with status `completed`. -/
theorem c10_empty_file_completed :
    BackupSystem.submitPhase te testCipher BackupSystem.defaultProviders
        [] 1 = []
    ∧ chunk_count 0 CHUNK_SIZE = 0
    ∧ BackupSystem.backupFile te testCipher BackupSystem.defaultProviders
        ⟨[], []⟩ "e.bin" [] "2026-10-11" (fun _ => true) =
        ⟨[⟨1, "e.bin", 0, 0, tkey, tiv, "2026-10-11", "completed"⟩], []⟩ := by
  refine ⟨?_, ?_, ?_⟩ <;> decide

/-- Counting lemma for round-robin assignment: among the chunk indices
`0, …, K-1`, exactly `K / N` (plus one when `j < K % N`) are assigned
to backend position `j`. -/
theorem countP_mod_range (N j : Nat) (hN : 0 < N) (hj : j < N) (K : Nat) :
    (List.range K).countP (fun i => i % N == j) =
      K / N + (if j < K % N then 1 else 0) := by
  induction K with
  | zero => simp
  | succ K ih =>
    rw [List.range_succ, List.countP_append, ih]
    have hq := Nat.div_add_mod K N
    have hr : K % N < N := Nat.mod_lt K hN
    simp only [List.countP_cons, List.countP_nil, beq_iff_eq]
    rcases Nat.lt_or_ge (K % N + 1) N with hlt | hge
    · have hmod : (K + 1) % N = K % N + 1 := by
        conv_lhs => rw [← hq]
        rw [Nat.add_assoc, Nat.mul_add_mod]
        exact Nat.mod_eq_of_lt hlt
      have hdiv : (K + 1) / N = K / N := by
        conv_lhs => rw [← hq]
        rw [Nat.add_assoc, Nat.mul_add_div hN]
        rw [Nat.div_eq_of_lt hlt, Nat.add_zero]
      rw [hmod, hdiv]
      split_ifs <;> omega
    · have hrN : K % N + 1 = N := by omega
      have hmod : (K + 1) % N = 0 := by
        conv_lhs => rw [← hq, Nat.add_assoc, hrN, ← Nat.mul_succ]
        exact Nat.mul_mod_right N (K / N + 1)
      have hdiv : (K + 1) / N = K / N + 1 := by
        conv_lhs => rw [← hq, Nat.add_assoc, hrN, ← Nat.mul_succ]
        exact Nat.mul_div_cancel_left _ hN
      rw [hmod, hdiv]
      split_ifs <;> omega

/-- Claim C7 (confirmed): the backend for chunk `i` is
`providers[i % providers.size()]` (main.cpp line 358), and consequently
over `K` chunks each backend position `j` receives either `K div N` or
`K div N + 1` chunks. -/
theorem c7_round_robin_assignment (providers : List String)
    (hp : providers ≠ []) (i K j : Nat) (hj : j < providers.length) :
    BackupSystem.selectProvider providers i =
      providers.get
        ⟨i % providers.length, Nat.mod_lt i (List.length_pos.mpr hp)⟩
    ∧ (BackupSystem.assignedCount K providers.length j =
          K / providers.length
      ∨ BackupSystem.assignedCount K providers.length j =
          K / providers.length + 1) := by
  have hN : 0 < providers.length := List.length_pos.mpr hp
  constructor
  · rw [BackupSystem.selectProvider,
      List.getD_eq_getElem providers "" (Nat.mod_lt i hN),
      List.get_eq_getElem]
  · rw [BackupSystem.assignedCount, countP_mod_range _ _ hN hj]
    split_ifs <;> omega

/-- Closed witness for claim C7 at a concrete input: the three
providers of the source constructor, chunk 4 goes to position 1
(Dropbox), and over 7 chunks position 1 receives either 7 div 3 or
7 div 3 + 1 chunks. -/
theorem c7_round_robin_assignment_witness :
    BackupSystem.defaultProviders ≠ []
    ∧ (1 : Nat) < BackupSystem.defaultProviders.length
    ∧ BackupSystem.selectProvider BackupSystem.defaultProviders 4 =
        "Dropbox"
    ∧ (BackupSystem.assignedCount 7 BackupSystem.defaultProviders.length 1 =
          7 / BackupSystem.defaultProviders.length
      ∨ BackupSystem.assignedCount 7 BackupSystem.defaultProviders.length 1 =
          7 / BackupSystem.defaultProviders.length + 1) := by
  have h := c7_round_robin_assignment BackupSystem.defaultProviders
    (by decide) 4 7 1 (by decide)
  exact ⟨by decide, by decide, by rw [h.1]; decide, h.2⟩

/-- Claim C9 (confirmed): `calculateChecksum` (main.cpp lines 311-320)
is the hex rendering of the byte sum, so any two byte sequences that
are permutations of each other receive the same checksum string: the
checksum cannot distinguish a stored blob from any reordering of it. -/
theorem c9_checksum_permutation_invariant (l1 l2 : List Byte)
    (h : l1.Perm l2) :
    BackupSystem.calculateChecksum l1 = BackupSystem.calculateChecksum l2 := by
  rw [BackupSystem.calculateChecksum, BackupSystem.calculateChecksum,
    h.sum_eq]

/-- Closed witness for claim C9: the two-byte sequences 01 02 and
02 01 are permutations of each other and get the same checksum. -/
theorem c9_checksum_permutation_invariant_witness :
    ([1, 2] : List Byte).Perm [2, 1]
    ∧ BackupSystem.calculateChecksum [1, 2] =
        BackupSystem.calculateChecksum [2, 1] :=
  ⟨by decide, c9_checksum_permutation_invariant [1, 2] [2, 1] (by decide)⟩

/-- The chunk read at index `i` equals `take c` of `drop (i * c)`: the
`min` in the source only caps the read size at the end of the file. -/
theorem chunkAt_eq_take_drop (file : List Byte) (c i : Nat) :
    BackupSystem.chunkAt file c i = (file.drop (i * c)).take c := by
  rw [BackupSystem.chunkAt]
  rcases Nat.le_total c (file.length - i * c) with hle | hle
  · rw [Nat.min_eq_left hle]
  · rw [Nat.min_eq_right hle,
      List.take_of_length_le (by simp),
      List.take_of_length_le (by simp [List.length_drop, hle])]

/-- Concatenating `n` successive `take c` slices recovers any list of
length at most `n * c`. -/
theorem flatten_take_slices (c : Nat) :
    ∀ (n : Nat) (l : List Byte), l.length ≤ n * c →
      ((List.range n).map (fun i => (l.drop (i * c)).take c)).flatten = l := by
  intro n
  induction n with
  | zero =>
    intro l hl
    have hnil : l = [] := List.eq_nil_of_length_eq_zero (by omega)
    subst hnil
    simp
  | succ n ih =>
    intro l hl
    rw [List.range_succ_eq_map, List.map_cons, List.map_map,
      List.flatten_cons]
    have hmap : (List.range n).map
          ((fun i => (l.drop (i * c)).take c) ∘ Nat.succ) =
        (List.range n).map (fun i => ((l.drop c).drop (i * c)).take c) := by
      apply List.map_congr_left
      intro a _
      simp only [Function.comp_apply]
      have hx : Nat.succ a * c = c + a * c := by rw [Nat.succ_mul]; omega
      rw [hx, List.drop_drop]
    rw [Nat.succ_mul] at hl
    have hlen2 : (l.drop c).length ≤ n * c := by
      rw [List.length_drop]
      omega
    rw [hmap, ih (l.drop c) hlen2]
    simpa using List.take_append_drop c l

/-- Claim C6 (confirmed): for every file and chunk size `c > 0` the
chunking loop produces exactly `ceil(S / c)` chunks, every chunk except
possibly the last has size `c` (and none exceeds `c`), and the chunks
concatenated in index order are exactly the original bytes. -/
theorem c6_chunking (file : List Byte) (c : Nat) (hc : 0 < c) :
    (BackupSystem.fileChunks file c).length = file.length ⌈/⌉ c
    ∧ (∀ i, i + 1 < chunk_count file.length c →
        (BackupSystem.chunkAt file c i).length = c)
    ∧ (∀ i, (BackupSystem.chunkAt file c i).length ≤ c)
    ∧ (BackupSystem.fileChunks file c).flatten = file := by
  refine ⟨?_, ?_, ?_, ?_⟩
  · rw [BackupSystem.fileChunks, List.length_map, List.length_range,
      chunk_count, Nat.ceilDiv_eq_add_pred_div]
  · intro i hi
    rw [chunk_count] at hi
    have h3 : (i + 2) * c ≤ file.length + c - 1 :=
      (Nat.le_div_iff_mul_le hc).mp (by omega)
    have hx : (i + 2) * c = i * c + 2 * c := by ring
    rw [BackupSystem.chunkAt, List.length_take, List.length_drop]
    omega
  · intro i
    rw [BackupSystem.chunkAt, List.length_take, List.length_drop]
    omega
  · rw [BackupSystem.fileChunks]
    rw [List.map_congr_left (fun a _ => chunkAt_eq_take_drop file c a)]
    apply flatten_take_slices
    rw [chunk_count]
    have hq := Nat.div_add_mod (file.length + c - 1) c
    have hr : (file.length + c - 1) % c < c := Nat.mod_lt _ hc
    rw [Nat.mul_comm] at hq
    generalize hA : (file.length + c - 1) / c * c = A at hq ⊢
    omega

/-- Closed witness for claim C6: a 7-byte file with chunk size 3 gives
ceil(7/3) = 3 chunks, all non-final chunks of size 3, and the chunks
flatten back to the file. -/
theorem c6_chunking_witness :
    0 < 3
    ∧ ((BackupSystem.fileChunks [10, 20, 30, 40, 50, 60, 70] 3).length =
          ([10, 20, 30, 40, 50, 60, 70] : List Byte).length ⌈/⌉ 3
      ∧ (∀ i, i + 1 <
            chunk_count ([10, 20, 30, 40, 50, 60, 70] : List Byte).length 3 →
          (BackupSystem.chunkAt [10, 20, 30, 40, 50, 60, 70] 3 i).length = 3)
      ∧ (∀ i,
          (BackupSystem.chunkAt [10, 20, 30, 40, 50, 60, 70] 3 i).length ≤ 3)
      ∧ (BackupSystem.fileChunks [10, 20, 30, 40, 50, 60, 70] 3).flatten =
          [10, 20, 30, 40, 50, 60, 70]) :=
  ⟨by decide, c6_chunking [10, 20, 30, 40, 50, 60, 70] 3 (by decide)⟩

/-- Claim C4 (refuted; code bug): tampering is supposed to make
decryption fail with an exposed AuthenticationFailure. The source uses
unauthenticated AES-CBC and ignores the return value of
`EVP_DecryptFinal_ex` (main.cpp line 72), so `decrypt` always returns a
byte string. Flipping the lowest bit of the first ciphertext byte of a
20-byte message leaves the padding of the final block valid: decryption
completes without any error signal and returns a full-length plaintext
different from the original — silently-wrong output. -/
theorem c4_tamper_not_detected :
    ((Encryption.encrypt te testCipher (List.replicate 20 65)).set 0
        (((Encryption.encrypt te testCipher (List.replicate 20 65)).getD 0 0)
          ^^^ 1))
      ≠ Encryption.encrypt te testCipher (List.replicate 20 65)
    ∧ Encryption.decrypt te testCipher
        ((Encryption.encrypt te testCipher (List.replicate 20 65)).set 0
          (((Encryption.encrypt te testCipher (List.replicate 20 65)).getD 0 0)
            ^^^ 1))
        ≠ List.replicate 20 65
    ∧ (Encryption.decrypt te testCipher
        ((Encryption.encrypt te testCipher (List.replicate 20 65)).set 0
          (((Encryption.encrypt te testCipher (List.replicate 20 65)).getD 0 0)
            ^^^ 1))).length = 20 := by
  refine ⟨?_, ?_, ?_⟩ <;> decide

/-! ## Lemmas for the CBC round trip (claim C5) -/

/-- XOR of two bytes below 256 stays below 256. -/
theorem xor_byte_lt {a b : Nat} (ha : a < 256) (hb : b < 256) :
    a ^^^ b < 256 := by
  have h256 : (256 : Nat) = 2 ^ 8 := by norm_num
  rw [h256] at ha hb ⊢
  exact Nat.bitwise_lt ha hb

/-- XOR with the same string twice gives back the original. -/
theorem xorBytes_cancel : ∀ (a b : List Byte), a.length = b.length →
    xorBytes a (xorBytes a b) = b := by
  intro a
  induction a with
  | nil =>
    intro b hb
    have hnil : b = [] := List.eq_nil_of_length_eq_zero hb.symm
    subst hnil
    rfl
  | cons x xs ih =>
    intro b hb
    cases b with
    | nil => simp at hb
    | cons y ys =>
      simp only [xorBytes, List.zipWith_cons_cons, List.cons.injEq]
      exact ⟨Nat.xor_cancel_left x y,
        ih ys (by simpa using hb)⟩

/-- Bytewise XOR of byte strings below 256 stays below 256. -/
theorem xorBytes_lt : ∀ (a b : List Byte), (∀ x ∈ a, x < 256) →
    (∀ x ∈ b, x < 256) → ∀ x ∈ xorBytes a b, x < 256 := by
  intro a
  induction a with
  | nil => intro b _ _ x hx; simp [xorBytes] at hx
  | cons p ps ih =>
    intro b ha hb x hx
    cases b with
    | nil => simp [xorBytes] at hx
    | cons q qs =>
      simp only [xorBytes, List.zipWith_cons_cons, List.mem_cons] at hx
      rcases hx with h1 | h2
      · subst h1
        exact xor_byte_lt (ha p (by simp)) (hb q (by simp))
      · exact ih qs (fun y hy => ha y (List.mem_cons_of_mem p hy))
          (fun y hy => hb y (List.mem_cons_of_mem q hy)) x h2

/-- The fuel of `toBlocksAux` is irrelevant as long as it covers the
length of the input. -/
theorem toBlocksAux_fuel : ∀ (f1 f2 : Nat) (l : List Byte),
    l.length ≤ f1 → l.length ≤ f2 → toBlocksAux f1 l = toBlocksAux f2 l := by
  intro f1
  induction f1 with
  | zero =>
    intro f2 l h1 _
    have hnil : l = [] := List.eq_nil_of_length_eq_zero (by omega)
    subst hnil
    cases f2 <;> rfl
  | succ f1 ih =>
    intro f2 l h1 h2
    cases l with
    | nil => cases f2 <;> rfl
    | cons x xs =>
      cases f2 with
      | zero => simp at h2
      | succ f2 =>
        simp only [toBlocksAux]
        congr 1
        apply ih
        · simp only [List.length_drop, List.length_cons] at h1 ⊢
          omega
        · simp only [List.length_drop, List.length_cons] at h2 ⊢
          omega

/-- Unfolding: `toBlocks` on the empty string. -/
theorem toBlocks_nil : toBlocks [] = [] := rfl

/-- Unfolding: `toBlocks` on a non-empty string. -/
theorem toBlocks_cons (l : List Byte) (h : l ≠ []) :
    toBlocks l = l.take 16 :: toBlocks (l.drop 16) := by
  cases l with
  | nil => exact absurd rfl h
  | cons x xs =>
    show toBlocksAux (xs.length + 1) (x :: xs) = _
    simp only [toBlocksAux]
    congr 1
    apply toBlocksAux_fuel
    · simp only [List.length_drop, List.length_cons]
      omega
    · exact Nat.le_refl _

/-- Auxiliary, fuelled form: block splitting then flattening is the
identity. -/
theorem toBlocks_flatten_aux : ∀ (n : Nat) (l : List Byte), l.length ≤ n →
    (toBlocks l).flatten = l := by
  intro n
  induction n with
  | zero =>
    intro l hl
    have hnil : l = [] := List.eq_nil_of_length_eq_zero (by omega)
    subst hnil
    simp [toBlocks_nil]
  | succ n ih =>
    intro l hl
    by_cases h : l = []
    · subst h; simp [toBlocks_nil]
    · have hpos : 0 < l.length := List.length_pos.mpr h
      have hd : (l.drop 16).length ≤ n := by
        simp only [List.length_drop]; omega
      rw [toBlocks_cons l h, List.flatten_cons, ih (l.drop 16) hd,
        List.take_append_drop]

/-- Block splitting then flattening is the identity. -/
theorem toBlocks_flatten (l : List Byte) : (toBlocks l).flatten = l :=
  toBlocks_flatten_aux l.length l (Nat.le_refl _)

/-- Auxiliary, fuelled form: blocks of a string whose length is a
multiple of 16 all have length 16. -/
theorem toBlocks_blocks_length_aux : ∀ (n : Nat) (l : List Byte),
    l.length ≤ n → l.length % 16 = 0 → ∀ b ∈ toBlocks l, b.length = 16 := by
  intro n
  induction n with
  | zero =>
    intro l hl _ b hb
    have hnil : l = [] := List.eq_nil_of_length_eq_zero (by omega)
    subst hnil
    simp [toBlocks_nil] at hb
  | succ n ih =>
    intro l hl hm b hb
    by_cases h : l = []
    · subst h; simp [toBlocks_nil] at hb
    · have hpos : 0 < l.length := List.length_pos.mpr h
      have h16 : 16 ≤ l.length := by omega
      rw [toBlocks_cons l h] at hb
      rcases List.mem_cons.mp hb with hb1 | hb2
      · subst hb1; rw [List.length_take]; omega
      · exact ih (l.drop 16)
          (by simp only [List.length_drop]; omega)
          (by simp only [List.length_drop]; omega) b hb2

/-- Blocks of a string whose length is a multiple of 16 all have
length 16. -/
theorem toBlocks_blocks_length (l : List Byte) (h : l.length % 16 = 0) :
    ∀ b ∈ toBlocks l, b.length = 16 :=
  toBlocks_blocks_length_aux l.length l (Nat.le_refl _) h

/-- Auxiliary, fuelled form: every byte of every block comes from the
original string. -/
theorem toBlocks_subset_aux : ∀ (n : Nat) (l : List Byte), l.length ≤ n →
    ∀ b ∈ toBlocks l, ∀ x ∈ b, x ∈ l := by
  intro n
  induction n with
  | zero =>
    intro l hl b hb
    have hnil : l = [] := List.eq_nil_of_length_eq_zero (by omega)
    subst hnil
    simp [toBlocks_nil] at hb
  | succ n ih =>
    intro l hl b hb x hx
    by_cases h : l = []
    · subst h; simp [toBlocks_nil] at hb
    · have hpos : 0 < l.length := List.length_pos.mpr h
      rw [toBlocks_cons l h] at hb
      rcases List.mem_cons.mp hb with hb1 | hb2
      · subst hb1; exact List.take_subset 16 l hx
      · have hd : (l.drop 16).length ≤ n := by
          simp only [List.length_drop]; omega
        exact List.drop_subset 16 l (ih (l.drop 16) hd b hb2 x hx)

/-- Every byte of every block comes from the original string. -/
theorem toBlocks_subset (l : List Byte) :
    ∀ b ∈ toBlocks l, ∀ x ∈ b, x ∈ l :=
  toBlocks_subset_aux l.length l (Nat.le_refl _)

/-- Splitting a flattened list of 16-byte blocks gives back the
blocks. -/
theorem toBlocks_flatten_blocks : ∀ (bs : List (List Byte)),
    (∀ b ∈ bs, b.length = 16) → toBlocks bs.flatten = bs := by
  intro bs
  induction bs with
  | nil => intro _; simp [toBlocks_nil]
  | cons b bs ih =>
    intro hbs
    have hb16 : b.length = 16 := hbs b (by simp)
    have hbne : b ++ bs.flatten ≠ [] := by
      intro hh
      have hlen := congrArg List.length hh
      simp [hb16] at hlen
    rw [List.flatten_cons, toBlocks_cons _ hbne, ← hb16, List.take_left,
      List.drop_left, ih (fun y hy => hbs y (List.mem_cons_of_mem b hy))]

/-- All CBC ciphertext blocks have length 16 when the block map
preserves length and the IV and all plaintext blocks have length 16. -/
theorem cbcEncBlocks_length (C : BlockCipher) (key : List Byte)
    (hlen : ∀ b : List Byte, (C.encB key b).length = b.length) :
    ∀ (bs : List (List Byte)) (prev : List Byte), prev.length = 16 →
      (∀ b ∈ bs, b.length = 16) →
      ∀ cb ∈ cbcEncBlocks C key prev bs, cb.length = 16 := by
  intro bs
  induction bs with
  | nil => intro prev _ _ cb hcb; simp [cbcEncBlocks] at hcb
  | cons b bs ih =>
    intro prev hprev hbs cb hcb
    simp only [cbcEncBlocks] at hcb
    have hxlen : (xorBytes prev b).length = 16 := by
      simp [xorBytes, List.length_zipWith, hprev, hbs b (by simp)]
    have hclen : (C.encB key (xorBytes prev b)).length = 16 := by
      rw [hlen]; exact hxlen
    rcases List.mem_cons.mp hcb with h1 | h2
    · rw [h1]; exact hclen
    · exact ih (C.encB key (xorBytes prev b)) hclen
        (fun y hy => hbs y (List.mem_cons_of_mem b hy)) cb h2

/-- All bytes of all CBC ciphertext blocks stay below 256 when the
block map preserves that bound. -/
theorem cbcEncBlocks_bytes_lt (C : BlockCipher) (key : List Byte)
    (hb : ∀ b : List Byte, (∀ x ∈ b, x < 256) →
      ∀ x ∈ C.encB key b, x < 256) :
    ∀ (bs : List (List Byte)) (prev : List Byte), (∀ x ∈ prev, x < 256) →
      (∀ b ∈ bs, ∀ x ∈ b, x < 256) →
      ∀ cb ∈ cbcEncBlocks C key prev bs, ∀ x ∈ cb, x < 256 := by
  intro bs
  induction bs with
  | nil => intro prev _ _ cb hcb; simp [cbcEncBlocks] at hcb
  | cons b bs ih =>
    intro prev hprev hbs cb hcb
    simp only [cbcEncBlocks] at hcb
    have hxlt : ∀ x ∈ xorBytes prev b, x < 256 :=
      xorBytes_lt prev b hprev (hbs b (by simp))
    have hclt : ∀ x ∈ C.encB key (xorBytes prev b), x < 256 :=
      hb (xorBytes prev b) hxlt
    rcases List.mem_cons.mp hcb with h1 | h2
    · rw [h1]; exact hclt
    · exact ih (C.encB key (xorBytes prev b)) hclt
        (fun y hy => hbs y (List.mem_cons_of_mem b hy)) cb h2

/-- CBC decryption undoes CBC encryption blockwise, given that the
keyed block map is length-preserving, bound-preserving and inverted by
the keyed inverse map on 16-byte blocks of bytes. -/
theorem cbcDec_cbcEnc (C : BlockCipher) (key : List Byte)
    (hlen : ∀ b : List Byte, (C.encB key b).length = b.length)
    (hb : ∀ b : List Byte, (∀ x ∈ b, x < 256) →
      ∀ x ∈ C.encB key b, x < 256)
    (hinv : ∀ b : List Byte, b.length = 16 → (∀ x ∈ b, x < 256) →
      C.decB key (C.encB key b) = b) :
    ∀ (bs : List (List Byte)) (prev : List Byte), prev.length = 16 →
      (∀ x ∈ prev, x < 256) →
      (∀ b ∈ bs, b.length = 16) → (∀ b ∈ bs, ∀ x ∈ b, x < 256) →
      cbcDecBlocks C key prev (cbcEncBlocks C key prev bs) = bs := by
  intro bs
  induction bs with
  | nil => intro prev _ _ _ _; rfl
  | cons b bs ih =>
    intro prev hprev hprevb hbs hbsb
    simp only [cbcEncBlocks, cbcDecBlocks]
    have hxlen : (xorBytes prev b).length = 16 := by
      simp [xorBytes, List.length_zipWith, hprev, hbs b (by simp)]
    have hxlt : ∀ x ∈ xorBytes prev b, x < 256 :=
      xorBytes_lt prev b hprevb (hbsb b (by simp))
    rw [hinv (xorBytes prev b) hxlen hxlt,
      xorBytes_cancel prev b (by rw [hprev, hbs b (by simp)])]
    have hclen : (C.encB key (xorBytes prev b)).length = 16 := by
      rw [hlen]; exact hxlen
    have hclt : ∀ x ∈ C.encB key (xorBytes prev b), x < 256 :=
      hb (xorBytes prev b) hxlt
    rw [ih (C.encB key (xorBytes prev b)) hclen hclt
      (fun y hy => hbs y (List.mem_cons_of_mem b hy))
      (fun y hy => hbsb y (List.mem_cons_of_mem b hy))]

/-- Length of the padded plaintext. -/
theorem pkcs7pad_length (pt : List Byte) :
    (pkcs7pad pt).length = pt.length + (16 - pt.length % 16) := by
  simp [pkcs7pad]

/-- The padded plaintext length is a multiple of 16. -/
theorem pkcs7pad_mod (pt : List Byte) : (pkcs7pad pt).length % 16 = 0 := by
  rw [pkcs7pad_length]
  have hm : pt.length % 16 < 16 := Nat.mod_lt _ (by norm_num)
  omega

/-- Padding preserves the byte bound (pad bytes are at most 16). -/
theorem pkcs7pad_lt (pt : List Byte) (h : ∀ x ∈ pt, x < 256) :
    ∀ x ∈ pkcs7pad pt, x < 256 := by
  intro x hx
  simp only [pkcs7pad, List.mem_append, List.mem_replicate] at hx
  rcases hx with h1 | h2
  · exact h x h1
  · rcases h2 with ⟨-, rfl⟩
    show (16 - pt.length % 16 : Nat) < 256
    omega

/-- Last element of a non-empty replicate. -/
theorem getLast?_replicate_of_pos (n x : Nat) (h : 0 < n) :
    (List.replicate n x).getLast? = some x := by
  cases n with
  | zero => omega
  | succ m =>
    rw [List.replicate_succ', List.getLast?_append]
    rfl

/-- The last byte of the padded plaintext is the pad length. -/
theorem pkcs7pad_getLast (pt : List Byte) :
    (pkcs7pad pt).getLast? = some (16 - pt.length % 16) := by
  have hm : pt.length % 16 < 16 := Nat.mod_lt _ (by norm_num)
  have hpos : 0 < 16 - pt.length % 16 := by omega
  rw [show pkcs7pad pt = pt ++ List.replicate (16 - pt.length % 16)
      (16 - pt.length % 16) from rfl,
    List.getLast?_append, getLast?_replicate_of_pos _ _ hpos]
  rfl

/-- Claim C5 (confirmed): decrypting the encryption of any plaintext
under the same key/IV returns exactly the plaintext, for every chunk
index (the index is quantified but, as in the source, never reaches the
cipher). Hypotheses: the IV is a 16-byte string of bytes, the plaintext
consists of bytes, and the external keyed block map is
length-preserving, byte-bound-preserving and inverted by the keyed
inverse map on 16-byte blocks — the contract OpenSSL provides for the
AES-256 block primitive. -/
theorem c5_encrypt_decrypt_round_trip (C : BlockCipher) (e : Encryption)
    (i : Nat) (pt : List Byte)
    (hiv : e.iv.length = 16)
    (hivb : ∀ x ∈ e.iv, x < 256)
    (hptb : ∀ x ∈ pt, x < 256)
    (hlen : ∀ b : List Byte, (C.encB e.key b).length = b.length)
    (hb : ∀ b : List Byte, (∀ x ∈ b, x < 256) →
      ∀ x ∈ C.encB e.key b, x < 256)
    (hinv : ∀ b : List Byte, b.length = 16 → (∀ x ∈ b, x < 256) →
      C.decB e.key (C.encB e.key b) = b) :
    Encryption.decrypt e C (BackupSystem.encryptChunkAt e C i pt) = pt := by
  have hpadmod := pkcs7pad_mod pt
  have hpadlt := pkcs7pad_lt pt hptb
  have hblocks16 : ∀ b ∈ toBlocks (pkcs7pad pt), b.length = 16 :=
    toBlocks_blocks_length _ hpadmod
  have hblockslt : ∀ b ∈ toBlocks (pkcs7pad pt), ∀ x ∈ b, x < 256 :=
    fun b hbm x hx => hpadlt x (toBlocks_subset _ b hbm x hx)
  have henc16 : ∀ cb ∈ cbcEncBlocks C e.key e.iv (toBlocks (pkcs7pad pt)),
      cb.length = 16 :=
    cbcEncBlocks_length C e.key hlen _ e.iv hiv hblocks16
  have h1 : toBlocks
        ((cbcEncBlocks C e.key e.iv (toBlocks (pkcs7pad pt))).flatten) =
      cbcEncBlocks C e.key e.iv (toBlocks (pkcs7pad pt)) :=
    toBlocks_flatten_blocks _ henc16
  have h2 : cbcDecBlocks C e.key e.iv
        (cbcEncBlocks C e.key e.iv (toBlocks (pkcs7pad pt))) =
      toBlocks (pkcs7pad pt) :=
    cbcDec_cbcEnc C e.key hlen hb hinv _ e.iv hiv hivb hblocks16 hblockslt
  have hm : pt.length % 16 < 16 := Nat.mod_lt _ (by norm_num)
  have hdroplen : (pkcs7pad pt).length - (16 - pt.length % 16) = pt.length := by
    rw [pkcs7pad_length]
    omega
  have hdrop : (pkcs7pad pt).drop pt.length =
      List.replicate (16 - pt.length % 16) (16 - pt.length % 16) := by
    rw [show pkcs7pad pt = pt ++ List.replicate (16 - pt.length % 16)
        (16 - pt.length % 16) from rfl]
    exact List.drop_left pt _
  have hall : ((pkcs7pad pt).drop
        ((pkcs7pad pt).length - (16 - pt.length % 16))).all
      (fun x => x == 16 - pt.length % 16) = true := by
    rw [hdroplen, hdrop, List.all_eq_true]
    intro x hx
    rcases List.mem_replicate.mp hx with ⟨-, rfl⟩
    simp
  have htake : (pkcs7pad pt).take
      ((pkcs7pad pt).length - (16 - pt.length % 16)) = pt := by
    rw [hdroplen,
      show pkcs7pad pt = pt ++ List.replicate (16 - pt.length % 16)
        (16 - pt.length % 16) from rfl]
    exact List.take_left pt _
  have hmain : Encryption.decrypt e C
      ((cbcEncBlocks C e.key e.iv (toBlocks (pkcs7pad pt))).flatten) = pt := by
    have hc1 : (1 : Nat) ≤ 16 - pt.length % 16 := by omega
    have hc2 : (16 - pt.length % 16 : Nat) ≤ 16 := by omega
    simp only [Encryption.decrypt]
    rw [h1, h2, toBlocks_flatten, pkcs7pad_getLast]
    simp only []
    rw [if_pos ⟨hc1, hc2, hall⟩]
    exact htake
  exact hmain

/-- The concrete test primitive preserves length. -/
theorem testCipher_encB_length (key b : List Byte) :
    (testCipher.encB key b).length = b.length := by
  simp [testCipher]

/-- The concrete test primitive outputs bytes. -/
theorem testCipher_encB_lt (key b : List Byte) (h : ∀ x ∈ b, x < 256) :
    ∀ x ∈ testCipher.encB key b, x < 256 := by
  intro x hx
  simp only [testCipher, List.mem_map] at hx
  rcases hx with ⟨y, hy, rfl⟩
  exact Nat.mod_lt _ (by norm_num)

/-- Round trip of the test primitive on one byte. -/
theorem testByte_round_trip (y : Nat) (hy : y < 256) :
    ((y + 7) % 256 + 249) % 256 = y := by
  omega

/-- The concrete test primitive is inverted by its inverse map on
byte strings. -/
theorem testCipher_decB_encB (key b : List Byte)
    (h : ∀ x ∈ b, x < 256) :
    testCipher.decB key (testCipher.encB key b) = b := by
  simp only [testCipher, List.map_map]
  have hpt : ∀ y ∈ b,
      ((fun x => (x + 249) % 256) ∘ fun x => (x + 7) % 256) y = id y := by
    intro y hy
    simp only [Function.comp_apply, id_eq]
    exact testByte_round_trip y (h y hy)
  rw [List.map_congr_left hpt, List.map_id]

/-- Closed witness for claim C5: round trip at chunk index 5 on the
plaintext 65 66 67 with the concrete cipher, key and IV. -/
theorem c5_encrypt_decrypt_round_trip_witness :
    Encryption.decrypt te testCipher
        (BackupSystem.encryptChunkAt te testCipher 5 [65, 66, 67]) =
      [65, 66, 67] :=
  c5_encrypt_decrypt_round_trip testCipher te 5 [65, 66, 67]
    (by decide) (by decide) (by decide)
    (fun b => testCipher_encB_length te.key b)
    (fun b hb => testCipher_encB_lt te.key b hb)
    (fun b _ hb => testCipher_decB_encB te.key b hb)
